import Mathlib

/-!
Verification of the docmd core (src/docmd/core.py) against its
natural-language specification.  Python strings are modelled as `List Char`,
byte streams as `List Nat`, and the external collaborators (the Markdown
formatter and the two extraction engines) as function parameters.  The
stateful while-loop of `rreplace` is modelled with an explicit fuel
parameter; a fuel of `length + 1` is proved sufficient for the strategies
the converter uses.
-/

namespace Docmd

/-- Character list of a Lean string literal; models a Python str value. -/
def strL (s : String) : List Char := s.data

/-- The characters matched by the regex class backslash-s of the Python re
module on str patterns; the same set is stripped by str.strip. -/
def wsChars : List Char :=
  ['\t', '\n', '\x0b', '\x0c', '\x0d', '\x1c', '\x1d', '\x1e', '\x1f', ' ',
   '\x85', '\xa0', '\u1680', '\u2000', '\u2001', '\u2002', '\u2003', '\u2004',
   '\u2005', '\u2006', '\u2007', '\u2008', '\u2009', '\u200a', '\u2028',
   '\u2029', '\u202f', '\u205f', '\u3000']

/-- Whitespace test of the Python re module and of str.strip. -/
def wsChar (c : Char) : Bool := decide (c ∈ wsChars)

/-- Proposition that `k` occurs at the start of `s` (Python s.startswith(k)). -/
def IsPref (k s : List Char) : Prop := ∃ v, s = k ++ v

/-- Proposition that `k` occurs as a contiguous substring of `s` (Python `k in s`). -/
def IsSub (k s : List Char) : Prop := ∃ u v, s = u ++ k ++ v

/-- Boolean test that `k` is at the start of `s`. -/
def isPrefB : List Char → List Char → Bool
  | [], _ => true
  | _ :: _, [] => false
  | a :: as, b :: bs => a == b && isPrefB as bs

/-- Boolean test that `k` occurs as a substring of `s`, trying every start position. -/
def isSubB (k : List Char) : List Char → Bool
  | [] => k.isEmpty
  | s@(_ :: rest) => isPrefB k s || isSubB k rest

theorem isPrefB_iff : ∀ (k s : List Char), isPrefB k s = true ↔ IsPref k s
  | [], s => by simp [isPrefB, IsPref]
  | a :: as, [] => by simp [isPrefB, IsPref]
  | a :: as, b :: bs => by
      simp only [isPrefB, Bool.and_eq_true, beq_iff_eq, isPrefB_iff as bs, IsPref,
        List.cons_append, List.cons.injEq]
      constructor
      · rintro ⟨rfl, v, rfl⟩
        exact ⟨v, rfl, rfl⟩
      · rintro ⟨v, rfl, rfl⟩
        exact ⟨rfl, v, rfl⟩

theorem IsSub_nil_iff (k : List Char) : IsSub k [] ↔ k = [] := by
  constructor
  · rintro ⟨u, v, h⟩
    have h' := h.symm
    simp only [List.append_eq_nil] at h'
    exact h'.1.2
  · rintro rfl
    exact ⟨[], [], rfl⟩

theorem IsSub_cons_iff (k : List Char) (c : Char) (t : List Char) :
    IsSub k (c :: t) ↔ IsPref k (c :: t) ∨ IsSub k t := by
  constructor
  · rintro ⟨u, v, h⟩
    cases u with
    | nil => exact Or.inl ⟨v, by simpa using h⟩
    | cons x u' =>
        simp only [List.cons_append, List.cons.injEq] at h
        exact Or.inr ⟨u', v, h.2⟩
  · rintro (⟨v, h⟩ | ⟨u, v, h⟩)
    · exact ⟨[], v, by simpa using h⟩
    · exact ⟨c :: u, v, by simp [h]⟩

theorem IsSub_of_append_right (k a b : List Char) (h : IsSub k b) : IsSub k (a ++ b) := by
  obtain ⟨u, v, rfl⟩ := h
  exact ⟨a ++ u, v, by simp⟩

theorem IsSub_of_IsPref (k s : List Char) (h : IsPref k s) : IsSub k s := by
  obtain ⟨v, rfl⟩ := h
  exact ⟨[], v, rfl⟩

theorem isSubB_iff : ∀ (k s : List Char), isSubB k s = true ↔ IsSub k s
  | k, [] => by
      simp only [isSubB, List.isEmpty_iff, IsSub_nil_iff]
  | k, c :: t => by
      simp only [isSubB, Bool.or_eq_true, isPrefB_iff, isSubB_iff k t, IsSub_cons_iff]

theorem isSubB_nil_left : ∀ (s : List Char), isSubB ([] : List Char) s = true
  | [] => rfl
  | c :: t => by simp [isSubB, isPrefB]

theorem isSubB_false_iff (k s : List Char) : isSubB k s = false ↔ ¬ IsSub k s := by
  constructor
  · intro h hsub
    rw [(isSubB_iff k s).2 hsub] at h
    cases h
  · intro h
    cases hb : isSubB k s with
    | false => rfl
    | true => exact absurd ((isSubB_iff k s).1 hb) h

instance (k s : List Char) : Decidable (IsSub k s) :=
  decidable_of_iff _ (isSubB_iff k s)

/-- Occurrences of a key whose characters avoid a block `a` cannot start inside `a`. -/
theorem sub_of_append_of_disjoint (k : List Char) (hk : k ≠ []) :
    ∀ (a b : List Char), (∀ c ∈ k, c ∉ a) → IsSub k (a ++ b) → IsSub k b
  | [], b, _, h => by simpa using h
  | x :: a', b, hdisj, h => by
      rw [List.cons_append, IsSub_cons_iff] at h
      cases h with
      | inl hpref =>
          obtain ⟨v, hv⟩ := hpref
          cases k with
          | nil => exact absurd rfl hk
          | cons kh kt =>
              simp only [List.cons_append, List.cons.injEq] at hv
              exact absurd (List.mem_cons_self x a') (hv.1 ▸ hdisj kh (List.mem_cons_self kh kt))
      | inr hsub =>
          exact sub_of_append_of_disjoint k hk a' b
            (fun c hc => fun hmem => hdisj c hc (List.mem_cons_of_mem x hmem)) hsub

/-! The replacement engine.  `replaceAllFuel` models one call of Python
str.replace(old, new): all non-overlapping occurrences of old are replaced,
scanning left to right; with an empty old, new is inserted at every
position, as Python does.  The fuel only bounds the recursion depth; a fuel
of `s.length` always suffices and is what `replaceAll` passes. -/

def replaceAllFuel (old new : List Char) : Nat → List Char → List Char
  | _, [] => if old.isEmpty then new else []
  | 0, s => s
  | fuel + 1, c :: rest =>
      if old.isEmpty then
        new ++ c :: replaceAllFuel old new fuel rest
      else if isPrefB old (c :: rest) then
        new ++ replaceAllFuel old new fuel ((c :: rest).drop old.length)
      else
        c :: replaceAllFuel old new fuel rest

/-- Python str.replace(old, new) on `s`. -/
def replaceAll (old new s : List Char) : List Char := replaceAllFuel old new s.length s

/-- Loop of rreplace: while substring occurs, replace all its occurrences.
Returns none when the iteration budget is exhausted, that is, when the
Python loop would still be running after `fuel` iterations. -/
def rreplaceFuel (old new : List Char) : Nat → List Char → Option (List Char)
  | 0, s => if isSubB old s then none else some s
  | fuel + 1, s => if isSubB old s then rreplaceFuel old new fuel (replaceAll old new s) else some s

/-- Model of rreplace(string, substring, replace): recursively replaces all
occurrences of substring until none remains.  A budget of `length + 1`
iterations is proved sufficient for every pair the converter uses
(replacement strictly shorter than pattern); for those pairs this function
agrees with the Python loop. -/
def rreplace (string substring replace : List Char) : List Char :=
  (rreplaceFuel substring replace (string.length + 1) string).getD string

/-- Model of DEFAULT_STRATEGY_REPLACE, in dict insertion order. -/
def DEFAULT_STRATEGY_REPLACE : List (List Char × List Char) :=
  [(strL "\n\n\n", strL "\n\n"), (strL "xxxxxxx", strL "xxx"), (strL "- -", strL "-")]

/-- Model of apply_strategy_replace: fold the pairs in mapping order. -/
def apply_strategy_replace (string : List Char) (strategy : List (List Char × List Char)) :
    List Char :=
  strategy.foldl (fun acc p => rreplace acc p.1 p.2) string

theorem isPrefB_append_drop : ∀ (old s : List Char), isPrefB old s = true →
    old ++ s.drop old.length = s
  | [], s, _ => by simp
  | a :: as, [], h => by cases h
  | a :: as, b :: bs, h => by
      simp only [isPrefB, Bool.and_eq_true, beq_iff_eq] at h
      obtain ⟨rfl, h2⟩ := h
      simpa using isPrefB_append_drop as bs h2

theorem isPrefB_length_le (old s : List Char) (h : isPrefB old s = true) :
    old.length ≤ s.length := by
  have := isPrefB_append_drop old s h
  calc old.length ≤ old.length + (s.drop old.length).length := Nat.le_add_right _ _
    _ = (old ++ s.drop old.length).length := (List.length_append _ _).symm
    _ = s.length := by rw [this]

theorem isEmpty_false_of_ne (old : List Char) (h : old ≠ []) : old.isEmpty = false := by
  cases old with
  | nil => exact absurd rfl h
  | cons a t => rfl

theorem replaceAllFuel_nil (old new : List Char) (fuel : Nat) (hold : old ≠ []) :
    replaceAllFuel old new fuel [] = [] := by
  cases fuel <;> simp [replaceAllFuel, isEmpty_false_of_ne old hold]

theorem replaceAllFuel_cons_pos (old new : List Char) (n : Nat) (c : Char) (rest : List Char)
    (hold : old ≠ []) (hp : isPrefB old (c :: rest) = true) :
    replaceAllFuel old new (n + 1) (c :: rest) =
      new ++ replaceAllFuel old new n ((c :: rest).drop old.length) := by
  simp [replaceAllFuel, isEmpty_false_of_ne old hold, hp]

theorem replaceAllFuel_cons_neg (old new : List Char) (n : Nat) (c : Char) (rest : List Char)
    (hold : old ≠ []) (hp : isPrefB old (c :: rest) = false) :
    replaceAllFuel old new (n + 1) (c :: rest) = c :: replaceAllFuel old new n rest := by
  simp [replaceAllFuel, isEmpty_false_of_ne old hold, hp]

theorem old_length_pos (old : List Char) (hold : old ≠ []) : 1 ≤ old.length := by
  cases old with
  | nil => exact absurd rfl hold
  | cons _ _ => simp

theorem replaceAllFuel_length_le (old new : List Char) (hold : old ≠ [])
    (hlen : new.length ≤ old.length) :
    ∀ (fuel : Nat) (s : List Char), s.length ≤ fuel →
      (replaceAllFuel old new fuel s).length ≤ s.length := by
  intro fuel
  induction fuel with
  | zero =>
      intro s hs
      have : s = [] := List.length_eq_zero.1 (Nat.le_zero.1 hs)
      subst this
      simp [replaceAllFuel_nil old new 0 hold]
  | succ n ih =>
      intro s hs
      cases s with
      | nil => simp [replaceAllFuel_nil old new (n + 1) hold]
      | cons c rest =>
          cases hp : isPrefB old (c :: rest) with
          | true =>
              rw [replaceAllFuel_cons_pos old new n c rest hold hp]
              have holdlen := old_length_pos old hold
              have hdlen : ((c :: rest).drop old.length).length =
                  (c :: rest).length - old.length := by
                simp [List.length_drop]
              have hrec := ih ((c :: rest).drop old.length) (by
                rw [hdlen]
                have h1 : (c :: rest).length ≤ n + 1 := hs
                omega)
              have hle := isPrefB_length_le old (c :: rest) hp
              simp only [List.length_append]
              omega
          | false =>
              rw [replaceAllFuel_cons_neg old new n c rest hold hp]
              simp only [List.length_cons]
              have hrec := ih rest (by simpa using Nat.le_of_succ_le_succ hs)
              omega

theorem replaceAllFuel_length_lt (old new : List Char) (hold : old ≠ [])
    (hlen : new.length < old.length) :
    ∀ (fuel : Nat) (s : List Char), s.length ≤ fuel → isSubB old s = true →
      (replaceAllFuel old new fuel s).length < s.length := by
  intro fuel
  induction fuel with
  | zero =>
      intro s hs hsub
      have : s = [] := List.length_eq_zero.1 (Nat.le_zero.1 hs)
      subst this
      simp only [isSubB, List.isEmpty_iff] at hsub
      exact absurd hsub hold
  | succ n ih =>
      intro s hs hsub
      cases s with
      | nil =>
          simp only [isSubB, List.isEmpty_iff] at hsub
          exact absurd hsub hold
      | cons c rest =>
          cases hp : isPrefB old (c :: rest) with
          | true =>
              rw [replaceAllFuel_cons_pos old new n c rest hold hp]
              have holdlen := old_length_pos old hold
              have hdlen : ((c :: rest).drop old.length).length =
                  (c :: rest).length - old.length := by
                simp [List.length_drop]
              have hrec := replaceAllFuel_length_le old new hold (Nat.le_of_lt hlen) n
                ((c :: rest).drop old.length) (by
                  rw [hdlen]
                  have h1 : (c :: rest).length ≤ n + 1 := hs
                  omega)
              have hle := isPrefB_length_le old (c :: rest) hp
              simp only [List.length_append]
              omega
          | false =>
              rw [replaceAllFuel_cons_neg old new n c rest hold hp]
              simp only [List.length_cons]
              simp only [isSubB, Bool.or_eq_true] at hsub
              cases hsub with
              | inl h => rw [hp] at h; cases h
              | inr h =>
                  have hrec := ih rest (by simpa using Nat.le_of_succ_le_succ hs) h
                  omega

theorem rreplaceFuel_isSome (old new : List Char) (hold : old ≠ [])
    (hlt : new.length < old.length) :
    ∀ (fuel : Nat) (s : List Char), s.length < fuel →
      (rreplaceFuel old new fuel s).isSome = true := by
  intro fuel
  induction fuel with
  | zero => intro s hs; omega
  | succ n ih =>
      intro s hs
      by_cases hb : isSubB old s = true
      · simp only [rreplaceFuel, hb, if_true]
        have hlen1 : 1 ≤ s.length := by
          cases s with
          | nil =>
              simp only [isSubB, List.isEmpty_iff] at hb
              exact absurd hb hold
          | cons _ _ => simp
        have hdec := replaceAllFuel_length_lt old new hold hlt s.length s (Nat.le_refl _) hb
        exact ih (replaceAll old new s) (by simp only [replaceAll]; omega)
      · simp only [rreplaceFuel, hb, if_false]
        rfl

theorem rreplaceFuel_some_not_sub (old new : List Char) :
    ∀ (fuel : Nat) (s r : List Char), rreplaceFuel old new fuel s = some r →
      isSubB old r = false := by
  intro fuel
  induction fuel with
  | zero =>
      intro s r h
      by_cases hb : isSubB old s = true
      · simp [rreplaceFuel, hb] at h
      · simp only [rreplaceFuel, hb, if_neg, Bool.false_eq_true, if_false,
          Option.some.injEq] at h
        subst h
        simpa using hb
  | succ n ih =>
      intro s r h
      by_cases hb : isSubB old s = true
      · simp only [rreplaceFuel, hb, if_true] at h
        exact ih _ r h
      · simp only [rreplaceFuel, hb, Bool.false_eq_true, if_false, Option.some.injEq] at h
        subst h
        simpa using hb

theorem rreplaceFuel_of_not_sub (old new : List Char) (fuel : Nat) (s : List Char)
    (h : isSubB old s = false) : rreplaceFuel old new fuel s = some s := by
  cases fuel with
  | zero => simp [rreplaceFuel, h]
  | succ n => simp [rreplaceFuel, h]

theorem IsPref_nil_elim (k s : List Char) (h : IsPref k []) : IsPref k s := by
  obtain ⟨v, hv⟩ := h
  have h' := hv.symm
  simp only [List.append_eq_nil] at h'
  exact ⟨s, by simp [h'.1]⟩

theorem pref_replaceAllFuel (old new : List Char) (hold : old ≠ []) (hnew : new ≠ []) :
    ∀ (fuel : Nat) (s k : List Char), s.length ≤ fuel → (∀ c ∈ k, c ∉ new) →
      IsPref k (replaceAllFuel old new fuel s) → IsPref k s := by
  intro fuel
  induction fuel with
  | zero =>
      intro s k hs hdisj hpref
      have : s = [] := List.length_eq_zero.1 (Nat.le_zero.1 hs)
      subst this
      rw [replaceAllFuel_nil old new 0 hold] at hpref
      exact IsPref_nil_elim k [] hpref
  | succ n ih =>
      intro s k hs hdisj hpref
      cases s with
      | nil =>
          rw [replaceAllFuel_nil old new (n + 1) hold] at hpref
          exact IsPref_nil_elim k [] hpref
      | cons c rest =>
          cases hp : isPrefB old (c :: rest) with
          | true =>
              rw [replaceAllFuel_cons_pos old new n c rest hold hp] at hpref
              cases k with
              | nil => exact ⟨c :: rest, rfl⟩
              | cons a k' =>
                  obtain ⟨v, hv⟩ := hpref
                  cases hnewc : new with
                  | nil => exact absurd hnewc hnew
                  | cons b nt =>
                      rw [hnewc] at hv
                      simp only [List.cons_append, List.cons.injEq] at hv
                      have ha : a ∈ new := by
                        rw [hnewc, hv.1]
                        exact List.mem_cons_self a nt
                      exact absurd ha (hdisj a (List.mem_cons_self a k'))
          | false =>
              rw [replaceAllFuel_cons_neg old new n c rest hold hp] at hpref
              cases k with
              | nil => exact ⟨c :: rest, rfl⟩
              | cons a k' =>
                  obtain ⟨v, hv⟩ := hpref
                  simp only [List.cons_append, List.cons.injEq] at hv
                  have hk' : IsPref k' (replaceAllFuel old new n rest) := ⟨v, hv.2⟩
                  have hrec := ih rest k' (by simpa using Nat.le_of_succ_le_succ hs)
                    (fun x hx => hdisj x (List.mem_cons_of_mem a hx)) hk'
                  obtain ⟨w, hw⟩ := hrec
                  exact ⟨w, by simp [hv.1, hw]⟩

theorem sub_replaceAllFuel (old new k : List Char) (hold : old ≠ []) (hnew : new ≠ [])
    (hk : k ≠ []) (hdisj : ∀ c ∈ k, c ∉ new) :
    ∀ (fuel : Nat) (s : List Char), s.length ≤ fuel →
      IsSub k (replaceAllFuel old new fuel s) → IsSub k s := by
  intro fuel
  induction fuel with
  | zero =>
      intro s hs hsub
      have : s = [] := List.length_eq_zero.1 (Nat.le_zero.1 hs)
      subst this
      rw [replaceAllFuel_nil old new 0 hold] at hsub
      exact absurd ((IsSub_nil_iff k).1 hsub) hk
  | succ n ih =>
      intro s hs hsub
      cases s with
      | nil =>
          rw [replaceAllFuel_nil old new (n + 1) hold] at hsub
          exact absurd ((IsSub_nil_iff k).1 hsub) hk
      | cons c rest =>
          cases hp : isPrefB old (c :: rest) with
          | true =>
            rw [replaceAllFuel_cons_pos old new n c rest hold hp] at hsub
            have h1 : IsSub k (replaceAllFuel old new n ((c :: rest).drop old.length)) :=
              sub_of_append_of_disjoint k hk new _ hdisj hsub
            have holdlen := old_length_pos old hold
            have h2 := ih ((c :: rest).drop old.length) (by
              have : ((c :: rest).drop old.length).length = (c :: rest).length - old.length := by
                simp [List.length_drop]
              have h1' : (c :: rest).length ≤ n + 1 := hs
              omega) h1
            have hdropeq := isPrefB_append_drop old (c :: rest) hp
            rw [← hdropeq]
            exact IsSub_of_append_right k old _ h2
          | false =>
            rw [replaceAllFuel_cons_neg old new n c rest hold hp] at hsub
            rw [IsSub_cons_iff] at hsub
            cases hsub with
            | inl hpref =>
                cases k with
                | nil => exact absurd rfl hk
                | cons a k' =>
                    obtain ⟨v, hv⟩ := hpref
                    simp only [List.cons_append, List.cons.injEq] at hv
                    have hk' : IsPref k' (replaceAllFuel old new n rest) := ⟨v, hv.2⟩
                    have hrec := pref_replaceAllFuel old new hold hnew n rest k'
                      (by simpa using Nat.le_of_succ_le_succ hs)
                      (fun x hx => hdisj x (List.mem_cons_of_mem a hx)) hk'
                    obtain ⟨w, hw⟩ := hrec
                    exact IsSub_of_IsPref _ _ ⟨w, by simp [hv.1, hw]⟩
            | inr hsub' =>
                have hrec := ih rest (by simpa using Nat.le_of_succ_le_succ hs) hsub'
                exact IsSub_of_append_right k [c] rest hrec

theorem sub_rreplaceFuel (old new k : List Char) (hold : old ≠ []) (hnew : new ≠ [])
    (hk : k ≠ []) (hdisj : ∀ c ∈ k, c ∉ new) :
    ∀ (fuel : Nat) (s r : List Char), rreplaceFuel old new fuel s = some r →
      IsSub k r → IsSub k s := by
  intro fuel
  induction fuel with
  | zero =>
      intro s r h hsub
      by_cases hb : isSubB old s = true
      · simp [rreplaceFuel, hb] at h
      · simp only [rreplaceFuel, hb, Bool.false_eq_true, if_false, Option.some.injEq] at h
        subst h
        exact hsub
  | succ n ih =>
      intro s r h hsub
      by_cases hb : isSubB old s = true
      · simp only [rreplaceFuel, hb, if_true] at h
        have h1 := ih (replaceAll old new s) r h hsub
        exact sub_replaceAllFuel old new k hold hnew hk hdisj s.length s (Nat.le_refl _) h1
      · simp only [rreplaceFuel, hb, Bool.false_eq_true, if_false, Option.some.injEq] at h
        subst h
        exact hsub

theorem rreplace_spec (string substring replace : List Char) (hold : substring ≠ [])
    (hlt : replace.length < substring.length) :
    rreplaceFuel substring replace (string.length + 1) string =
      some (rreplace string substring replace) ∧
    isSubB substring (rreplace string substring replace) = false := by
  have h := rreplaceFuel_isSome substring replace hold hlt (string.length + 1) string
    (by omega)
  obtain ⟨r, hr⟩ := Option.isSome_iff_exists.1 h
  have heq : rreplace string substring replace = r := by
    simp [rreplace, hr]
  rw [heq]
  exact ⟨hr, rreplaceFuel_some_not_sub substring replace _ string r hr⟩

theorem rreplace_sub_transfer (string substring replace k : List Char) (hold : substring ≠ [])
    (hnew : replace ≠ []) (hk : k ≠ []) (hdisj : ∀ c ∈ k, c ∉ replace) :
    IsSub k (rreplace string substring replace) → IsSub k string := by
  intro h
  cases hrf : rreplaceFuel substring replace (string.length + 1) string with
  | none =>
      simp only [rreplace, hrf, Option.getD_none] at h
      exact h
  | some r =>
      have heq : rreplace string substring replace = r := by simp [rreplace, hrf]
      rw [heq] at h
      exact sub_rreplaceFuel substring replace k hold hnew hk hdisj _ string r hrf h

theorem rreplace_of_not_sub (string substring replace : List Char)
    (h : isSubB substring string = false) : rreplace string substring replace = string := by
  simp [rreplace, rreplaceFuel_of_not_sub substring replace _ string h]

/-- Unfolded form of applying the default strategy: the three pairs in order. -/
theorem apply_default_eq (s : List Char) :
    apply_strategy_replace s DEFAULT_STRATEGY_REPLACE =
      rreplace (rreplace (rreplace s (strL "\n\n\n") (strL "\n\n"))
        (strL "xxxxxxx") (strL "xxx")) (strL "- -") (strL "-") := rfl

/-- After applying the default strategy, none of its keys occurs. -/
theorem default_fixpoint (s : List Char) :
    ¬ IsSub (strL "\n\n\n") (apply_strategy_replace s DEFAULT_STRATEGY_REPLACE) ∧
    ¬ IsSub (strL "xxxxxxx") (apply_strategy_replace s DEFAULT_STRATEGY_REPLACE) ∧
    ¬ IsSub (strL "- -") (apply_strategy_replace s DEFAULT_STRATEGY_REPLACE) := by
  rw [apply_default_eq]
  have spec1 := rreplace_spec s (strL "\n\n\n") (strL "\n\n") (by decide) (by decide)
  have spec2 := rreplace_spec (rreplace s (strL "\n\n\n") (strL "\n\n"))
    (strL "xxxxxxx") (strL "xxx") (by decide) (by decide)
  have spec3 := rreplace_spec (rreplace (rreplace s (strL "\n\n\n") (strL "\n\n"))
    (strL "xxxxxxx") (strL "xxx")) (strL "- -") (strL "-") (by decide) (by decide)
  refine ⟨?_, ?_, ?_⟩
  · intro h
    have h2 := rreplace_sub_transfer _ (strL "- -") (strL "-") (strL "\n\n\n")
      (by decide) (by decide) (by decide) (by decide) h
    have h3 := rreplace_sub_transfer _ (strL "xxxxxxx") (strL "xxx") (strL "\n\n\n")
      (by decide) (by decide) (by decide) (by decide) h2
    exact ((isSubB_false_iff _ _).1 spec1.2) h3
  · intro h
    have h2 := rreplace_sub_transfer _ (strL "- -") (strL "-") (strL "xxxxxxx")
      (by decide) (by decide) (by decide) (by decide) h
    exact ((isSubB_false_iff _ _).1 spec2.2) h2
  · exact (isSubB_false_iff _ _).1 spec3.2

/-! The regular-expression engine.  The two patterns of the source are
compiled, following their verbose pattern text, into a small AST whose
matcher implements the backtracking search of the Python re module:
alternatives are tried left to right, greedy repetitions of a character
class consume as much as possible and give back on failure, and the first
success in that order wins.  Case-insensitive matching lowers both sides,
which on the ASCII patterns at hand agrees with re.IGNORECASE. -/

inductive RE where
  | lit : List Char → RE
  | starCls : (Char → Bool) → RE
  | plusCls : (Char → Bool) → RE
  | seq : RE → RE → RE
  | alt : RE → RE → RE
  | opt : RE → RE

/-- Single-character case-insensitive match of the re module under
IGNORECASE: ASCII case folding plus the Unicode foldings that reach an
ASCII letter, namely dotted and dotless capital I on i, long s on s, and
the Kelvin sign on k. -/
def charCaseMatch (p x : Char) : Bool :=
  p.toLower == x.toLower ||
  (p.toLower == 'i' && (x == '\u0130' || x == '\u0131')) ||
  (p.toLower == 's' && x == '\u017f') ||
  (p.toLower == 'k' && x == '\u212a')

/-- Case-insensitive literal match: consume the pattern, return the rest. -/
def matchLit : List Char → List Char → Option (List Char)
  | [], s => some s
  | _ :: _, [] => none
  | p :: ps, c :: cs => if charCaseMatch p c then matchLit ps cs else none

/-- Test that a pattern matches a prefix of a string character-wise, case
insensitively. -/
def matchesCI : List Char → List Char → Bool
  | [], _ => true
  | _ :: _, [] => false
  | p :: ps, c :: cs => charCaseMatch p c && matchesCI ps cs

/-- Try the continuation on each candidate suffix; the first success wins. -/
def tryK (k : List Char → Option (List Char)) : List (List Char) → Option (List Char)
  | [] => none
  | t :: ts =>
      match k t with
      | some r => some r
      | none => tryK k ts

/-- Candidate suffixes for a greedy star over a character class: first the
suffix after the maximal run, then after ever shorter runs, down to zero
consumed characters. -/
def starCandidates (p : Char → Bool) (s : List Char) : List (List Char) :=
  (List.range ((s.takeWhile p).length + 1)).map (fun i => s.drop ((s.takeWhile p).length - i))

/-- Candidate suffixes for a greedy plus: down to one consumed character. -/
def plusCandidates (p : Char → Bool) (s : List Char) : List (List Char) :=
  (List.range (s.takeWhile p).length).map (fun i => s.drop ((s.takeWhile p).length - i))

/-- Backtracking matcher in continuation-passing style.  The continuation
receives the suffix left after the node; the result is the value of the
first continuation call that succeeds, in the order Python tries them. -/
def matchRE : RE → List Char → (List Char → Option (List Char)) → Option (List Char)
  | .lit p, s, k =>
      match matchLit p s with
      | some r => k r
      | none => none
  | .starCls p, s, k => tryK k (starCandidates p s)
  | .plusCls p, s, k => tryK k (plusCandidates p s)
  | .seq a b, s, k => matchRE a s (fun r => matchRE b r k)
  | .alt a b, s, k =>
      match matchRE a s k with
      | some r => some r
      | none => matchRE b s k
  | .opt a, s, k =>
      match matchRE a s k with
      | some r => some r
      | none => k s

/-- Anchored match at the head of `s`: the suffix after the match found
first by the backtracking search, as the Python matcher returns it. -/
def matchHere (re : RE) (s : List Char) : Option (List Char) := matchRE re s some

/-- Python re.sub: scan left to right, replace each non-overlapping match
by `repl`; after a zero-width match one character is copied before the
scan resumes.  The fuel only bounds the recursion depth; a fuel of
`s.length` always suffices and is what `subRE` passes. -/
def subREFuel (re : RE) (repl : List Char) : Nat → List Char → List Char
  | _, [] =>
      match matchHere re [] with
      | some _ => repl
      | none => []
  | 0, s => s
  | fuel + 1, c :: rest =>
      match matchHere re (c :: rest) with
      | none => c :: subREFuel re repl fuel rest
      | some suffix =>
          if suffix.length < rest.length + 1 then repl ++ subREFuel re repl fuel suffix
          else repl ++ c :: subREFuel re repl fuel rest

/-- Python re.sub of a whole string. -/
def subRE (re : RE) (repl : List Char) (s : List Char) : List Char :=
  subREFuel re repl s.length s

/-- The single-quote character, written by code point. -/
def squote : Char := Char.ofNat 39

/-- Compiled MIME alternation png, jpeg or jpg, gif, webp, svg+xml. -/
def mimeRE : RE :=
  .alt (.lit (strL "png"))
    (.alt (.seq (.lit (strL "jp")) (.seq (.opt (.lit (strL "e"))) (.lit (strL "g"))))
      (.alt (.lit (strL "gif"))
        (.alt (.lit (strL "webp")) (.lit (strL "svg+xml")))))

/-- Compiled optional-title group body: whitespace then a double-quoted,
single-quoted, or parenthesized title. -/
def titleRE : RE :=
  .seq (.plusCls wsChar)
    (.alt (.seq (.lit (strL "\"")) (.seq (.starCls (fun c => !(c == '"'))) (.lit (strL "\""))))
      (.alt (.seq (.lit [squote]) (.seq (.starCls (fun c => !(c == squote))) (.lit [squote])))
        (.seq (.lit (strL "(")) (.seq (.starCls (fun c => !(c == ')'))) (.lit (strL ")"))))))

/-- Character class excluding the closing parenthesis and whitespace. -/
def payloadChar (c : Char) : Bool := !(c == ')') && !(wsChar c)

/-- Compiled parenthesized base64 URL pattern: the whole of RE_BASE64_PAREN
and the tail of REGEX_BASE64_EMBED. -/
def parenCore : RE :=
  .seq (.lit (strL "("))
    (.seq (.starCls wsChar)
      (.seq (.lit (strL "data:image/"))
        (.seq mimeRE
          (.seq (.lit (strL ";base64"))
            (.seq (.starCls payloadChar)
              (.seq (.opt titleRE)
                (.seq (.starCls wsChar) (.lit (strL ")")))))))))

/-- Compiled RE_BASE64_PAREN. -/
def RE_BASE64_PAREN : RE := parenCore

/-- Compiled REGEX_BASE64_EMBED: the image marker, bracketed alt text, then
the parenthesized base64 URL pattern. -/
def REGEX_BASE64_EMBED : RE :=
  .seq (.lit (strL "!["))
    (.seq (.starCls (fun c => !(c == ']')))
      (.seq (.lit (strL "]")) parenCore))

/-- Model of clean_base64_images: delete embedded base64 images, then
replace remaining parenthesized base64 URLs with an empty pair of
parentheses. -/
def clean_base64_images (md : List Char) : List Char :=
  subRE RE_BASE64_PAREN (strL "()") (subRE REGEX_BASE64_EMBED [] md)

/-! Helper lemmas describing how the matcher behaves on strings built from
a recognized construct followed by arbitrary text. -/

theorem tryK_single (k : List Char → Option (List Char)) (t : List Char) :
    tryK k [t] = k t := by
  cases h : k t <;> simp [tryK, h]

theorem tryK_cons_some (k : List Char → Option (List Char)) (t : List Char)
    (ts : List (List Char)) (r : List Char) (h : k t = some r) :
    tryK k (t :: ts) = some r := by
  simp [tryK, h]

theorem takeWhile_append_eq (p : Char → Bool) (d : Char) (t : List Char) (hd : p d = false) :
    ∀ (a : List Char), (∀ c ∈ a, p c = true) → (a ++ d :: t).takeWhile p = a
  | [], _ => by simp [List.takeWhile_cons, hd]
  | x :: a', ha => by
      have hx : p x = true := ha x (List.mem_cons_self x a')
      simp only [List.cons_append, List.takeWhile_cons, hx, if_true]
      rw [takeWhile_append_eq p d t hd a' (fun c hc => ha c (List.mem_cons_of_mem x hc))]

theorem charCaseMatch_of_toLower (x c : Char) (h : x.toLower = c.toLower) :
    charCaseMatch x c = true := by
  simp [charCaseMatch, h]

/-- With an input character that is neither case-equal nor one of the four
extra folding targets, a pattern character does not match. -/
theorem charCaseMatch_false_of (p0 a : Char) (h1 : p0.toLower ≠ a.toLower)
    (h2 : a ≠ '\u0130') (h3 : a ≠ '\u0131') (h4 : a ≠ '\u017f') (h5 : a ≠ '\u212a') :
    charCaseMatch p0 a = false := by
  simp [charCaseMatch, beq_eq_false_iff_ne.mpr h1, beq_eq_false_iff_ne.mpr h2,
    beq_eq_false_iff_ne.mpr h3, beq_eq_false_iff_ne.mpr h4, beq_eq_false_iff_ne.mpr h5]

theorem matchLit_append : ∀ (p u : List Char),
    u.map Char.toLower = p.map Char.toLower → ∀ s, matchLit p (u ++ s) = some s
  | [], [], _, s => rfl
  | [], _ :: _, h, s => by simp at h
  | _ :: _, [], h, s => by simp at h
  | x :: ps, c :: cs, h, s => by
      simp only [List.map_cons, List.cons.injEq] at h
      simp only [List.cons_append, matchLit]
      rw [if_pos (charCaseMatch_of_toLower x c h.1.symm)]
      exact matchLit_append ps cs h.2 s

theorem matchLit_cons_ne (x c : Char) (ps t : List Char) (h : charCaseMatch x c = false) :
    matchLit (x :: ps) (c :: t) = none := by
  simp [matchLit, h]

theorem matchLit_fail_maps (p u tail : List Char) (y x : Char) (ys xs : List Char)
    (hp : p.map Char.toLower = y :: ys) (hu : u.map Char.toLower = x :: xs) (hne : y ≠ x)
    (hx1 : x ≠ '\u0130') (hx2 : x ≠ '\u0131') (hx3 : x ≠ '\u017f') (hx4 : x ≠ '\u212a') :
    matchLit p (u ++ tail) = none := by
  cases p with
  | nil => simp at hp
  | cons p0 pt =>
      cases u with
      | nil => simp at hu
      | cons a t =>
          simp only [List.map_cons, List.cons.injEq] at hp hu
          simp only [List.cons_append]
          have ha2 : a ≠ '\u0130' := by
            intro hEq
            apply hx1
            rw [← hu.1, hEq]
            decide
          have ha3 : a ≠ '\u0131' := by
            intro hEq
            apply hx2
            rw [← hu.1, hEq]
            decide
          have ha4 : a ≠ '\u017f' := by
            intro hEq
            apply hx3
            rw [← hu.1, hEq]
            decide
          have ha5 : a ≠ '\u212a' := by
            intro hEq
            apply hx4
            rw [← hu.1, hEq]
            decide
          exact matchLit_cons_ne p0 a pt (t ++ tail)
            (charCaseMatch_false_of p0 a (by rw [hp.1, hu.1]; exact hne) ha2 ha3 ha4 ha5)

theorem matchRE_lit (p u tail : List Char) (k : List Char → Option (List Char)) (r : List Char)
    (hu : u.map Char.toLower = p.map Char.toLower) (hk : k tail = some r) :
    matchRE (.lit p) (u ++ tail) k = some r := by
  simp only [matchRE]
  rw [matchLit_append p u hu tail]
  exact hk

theorem matchRE_lit_none (p s : List Char) (k : List Char → Option (List Char))
    (h : matchLit p s = none) : matchRE (.lit p) s k = none := by
  simp only [matchRE, h]

theorem seq_any_step (a b : RE) (s : List Char) (k : List Char → Option (List Char))
    (r : List Char) (h : matchRE a s (fun u => matchRE b u k) = some r) :
    matchRE (.seq a b) s k = some r := by
  simp only [matchRE]
  exact h

theorem seq_lit_step (p u : List Char) (b : RE) (s : List Char)
    (k : List Char → Option (List Char)) (r : List Char)
    (hu : u.map Char.toLower = p.map Char.toLower) (hrec : matchRE b s k = some r) :
    matchRE (.seq (.lit p) b) (u ++ s) k = some r := by
  simp only [matchRE]
  rw [matchLit_append p u hu s]
  exact hrec

theorem seq_lit_none (p : List Char) (b : RE) (s : List Char)
    (k : List Char → Option (List Char)) (h : matchLit p s = none) :
    matchRE (.seq (.lit p) b) s k = none := by
  simp only [matchRE, h]

theorem alt_left (a b : RE) (s : List Char) (k : List Char → Option (List Char)) (r : List Char)
    (h : matchRE a s k = some r) : matchRE (.alt a b) s k = some r := by
  simp only [matchRE, h]

theorem alt_right_eq (a b : RE) (s : List Char) (k : List Char → Option (List Char))
    (h : matchRE a s k = none) : matchRE (.alt a b) s k = matchRE b s k := by
  simp only [matchRE, h]

theorem opt_hit (a : RE) (s : List Char) (k : List Char → Option (List Char)) (r : List Char)
    (h : matchRE a s k = some r) : matchRE (.opt a) s k = some r := by
  simp only [matchRE, h]

theorem opt_miss (a : RE) (s : List Char) (k : List Char → Option (List Char))
    (h : matchRE a s k = none) : matchRE (.opt a) s k = k s := by
  simp only [matchRE, h]

theorem star_skip (p : Char → Bool) (c : Char) (t : List Char)
    (k : List Char → Option (List Char)) (hc : p c = false) :
    matchRE (.starCls p) (c :: t) k = k (c :: t) := by
  have hr1 : List.range 1 = [0] := rfl
  have hcand : starCandidates p (c :: t) = [c :: t] := by
    simp [starCandidates, List.takeWhile_cons, hc, hr1]
  simp only [matchRE, hcand]
  exact tryK_single k (c :: t)

theorem seq_star_skip (p : Char → Bool) (b : RE) (c : Char) (t : List Char)
    (k : List Char → Option (List Char)) (r : List Char) (hc : p c = false)
    (hrec : matchRE b (c :: t) k = some r) :
    matchRE (.seq (.starCls p) b) (c :: t) k = some r := by
  apply seq_any_step
  rw [star_skip p c t _ hc]
  exact hrec

theorem star_run (p : Char → Bool) (a : List Char) (d : Char) (t : List Char)
    (k : List Char → Option (List Char)) (r : List Char)
    (ha : ∀ c ∈ a, p c = true) (hd : p d = false) (hk : k (d :: t) = some r) :
    matchRE (.starCls p) (a ++ d :: t) k = some r := by
  simp only [matchRE, starCandidates, takeWhile_append_eq p d t hd a ha]
  rw [List.range_succ_eq_map, List.map_cons]
  apply tryK_cons_some
  rw [Nat.sub_zero, List.drop_left]
  exact hk

theorem seq_star_run (p : Char → Bool) (b : RE) (a : List Char) (d : Char) (t : List Char)
    (k : List Char → Option (List Char)) (r : List Char)
    (ha : ∀ c ∈ a, p c = true) (hd : p d = false)
    (hrec : matchRE b (d :: t) k = some r) :
    matchRE (.seq (.starCls p) b) (a ++ d :: t) k = some r := by
  apply seq_any_step
  exact star_run p a d t _ r ha hd hrec

theorem seq_plus_fail (p : Char → Bool) (b : RE) (c : Char) (t : List Char)
    (k : List Char → Option (List Char)) (hc : p c = false) :
    matchRE (.seq (.plusCls p) b) (c :: t) k = none := by
  simp only [matchRE, plusCandidates, List.takeWhile_cons, hc]
  simp [tryK]

theorem seq_opt_skip (a b : RE) (s : List Char) (k : List Char → Option (List Char))
    (r : List Char) (hfail : matchRE a s (fun u => matchRE b u k) = none)
    (hrec : matchRE b s k = some r) :
    matchRE (.seq (.opt a) b) s k = some r := by
  apply seq_any_step
  rw [opt_miss a s _ hfail]
  exact hrec

/-- Proposition that a character list is one of the recognized MIME names,
up to ASCII case. -/
def mimeOk (m : List Char) : Prop :=
  m.map Char.toLower = strL "png" ∨ m.map Char.toLower = strL "jpeg" ∨
  m.map Char.toLower = strL "jpg" ∨ m.map Char.toLower = strL "gif" ∨
  m.map Char.toLower = strL "webp" ∨ m.map Char.toLower = strL "svg+xml"

theorem mimeRE_match (m tail : List Char) (kb : List Char → Option (List Char)) (r : List Char)
    (hm : mimeOk m) (hkb : kb tail = some r) : matchRE mimeRE (m ++ tail) kb = some r := by
  rcases hm with h | h | h | h | h | h
  · -- png
    apply alt_left
    exact matchRE_lit (strL "png") m tail kb r (h.trans (by decide)) hkb
  · -- jpeg
    rw [mimeRE, alt_right_eq _ _ _ _
      (matchRE_lit_none _ _ _ (matchLit_fail_maps (strL "png") m tail 'p' 'j' (strL "ng")
        (strL "peg") (by decide) h (by decide) (by decide) (by decide) (by decide) (by decide)))]
    apply alt_left
    have hsplit : m = m.take 2 ++ m.drop 2 := (List.take_append_drop 2 m).symm
    rw [hsplit, List.append_assoc]
    apply seq_lit_step (strL "jp") (m.take 2) _ _ kb r
      (by rw [List.map_take, h]; decide)
    apply seq_any_step
    apply opt_hit
    have hsplit2 : m.drop 2 = (m.drop 2).take 1 ++ (m.drop 2).drop 1 :=
      (List.take_append_drop 1 (m.drop 2)).symm
    rw [hsplit2, List.append_assoc]
    apply matchRE_lit (strL "e") ((m.drop 2).take 1) _ _ r
      (by rw [List.map_take, List.map_drop, h]; decide)
    exact matchRE_lit (strL "g") ((m.drop 2).drop 1) tail kb r
      (by rw [List.map_drop, List.map_drop, h]; decide) hkb
  · -- jpg
    rw [mimeRE, alt_right_eq _ _ _ _
      (matchRE_lit_none _ _ _ (matchLit_fail_maps (strL "png") m tail 'p' 'j' (strL "ng")
        (strL "pg") (by decide) h (by decide) (by decide) (by decide) (by decide) (by decide)))]
    apply alt_left
    have hsplit : m = m.take 2 ++ m.drop 2 := (List.take_append_drop 2 m).symm
    rw [hsplit, List.append_assoc]
    apply seq_lit_step (strL "jp") (m.take 2) _ _ kb r
      (by rw [List.map_take, h]; decide)
    apply seq_any_step
    rw [opt_miss _ _ _
      (matchRE_lit_none _ _ _ (matchLit_fail_maps (strL "e") (m.drop 2) tail 'e' 'g' [] []
        (by decide) (by rw [List.map_drop, h]; decide) (by decide) (by decide) (by decide) (by decide) (by decide)))]
    exact matchRE_lit (strL "g") (m.drop 2) tail kb r
      (by rw [List.map_drop, h]; decide) hkb
  · -- gif
    rw [mimeRE, alt_right_eq _ _ _ _
      (matchRE_lit_none _ _ _ (matchLit_fail_maps (strL "png") m tail 'p' 'g' (strL "ng")
        (strL "if") (by decide) h (by decide) (by decide) (by decide) (by decide) (by decide)))]
    rw [alt_right_eq _ _ _ _
      (seq_lit_none _ _ _ _ (matchLit_fail_maps (strL "jp") m tail 'j' 'g' (strL "p")
        (strL "if") (by decide) h (by decide) (by decide) (by decide) (by decide) (by decide)))]
    apply alt_left
    exact matchRE_lit (strL "gif") m tail kb r (h.trans (by decide)) hkb
  · -- webp
    rw [mimeRE, alt_right_eq _ _ _ _
      (matchRE_lit_none _ _ _ (matchLit_fail_maps (strL "png") m tail 'p' 'w' (strL "ng")
        (strL "ebp") (by decide) h (by decide) (by decide) (by decide) (by decide) (by decide)))]
    rw [alt_right_eq _ _ _ _
      (seq_lit_none _ _ _ _ (matchLit_fail_maps (strL "jp") m tail 'j' 'w' (strL "p")
        (strL "ebp") (by decide) h (by decide) (by decide) (by decide) (by decide) (by decide)))]
    rw [alt_right_eq _ _ _ _
      (matchRE_lit_none _ _ _ (matchLit_fail_maps (strL "gif") m tail 'g' 'w' (strL "if")
        (strL "ebp") (by decide) h (by decide) (by decide) (by decide) (by decide) (by decide)))]
    apply alt_left
    exact matchRE_lit (strL "webp") m tail kb r (h.trans (by decide)) hkb
  · -- svg+xml
    rw [mimeRE, alt_right_eq _ _ _ _
      (matchRE_lit_none _ _ _ (matchLit_fail_maps (strL "png") m tail 'p' 's' (strL "ng")
        (strL "vg+xml") (by decide) h (by decide) (by decide) (by decide) (by decide) (by decide)))]
    rw [alt_right_eq _ _ _ _
      (seq_lit_none _ _ _ _ (matchLit_fail_maps (strL "jp") m tail 'j' 's' (strL "p")
        (strL "vg+xml") (by decide) h (by decide) (by decide) (by decide) (by decide) (by decide)))]
    rw [alt_right_eq _ _ _ _
      (matchRE_lit_none _ _ _ (matchLit_fail_maps (strL "gif") m tail 'g' 's' (strL "if")
        (strL "vg+xml") (by decide) h (by decide) (by decide) (by decide) (by decide) (by decide)))]
    rw [alt_right_eq _ _ _ _
      (matchRE_lit_none _ _ _ (matchLit_fail_maps (strL "webp") m tail 'w' 's' (strL "ebp")
        (strL "vg+xml") (by decide) h (by decide) (by decide) (by decide) (by decide) (by decide)))]
    exact matchRE_lit (strL "svg+xml") m tail kb r (h.trans (by decide)) hkb

theorem wsChar_toLower_self (c : Char) (h : wsChar c = true) : c.toLower = c :=
  (show ∀ x ∈ wsChars, x.toLower = x by decide) c (of_decide_eq_true h)

theorem wsChar_false_of_toLower_d (a : Char) (ha : a.toLower = 'd') : wsChar a = false := by
  cases hws : wsChar a with
  | false => rfl
  | true =>
      have hfix := wsChar_toLower_self a hws
      rw [hfix] at ha
      subst ha
      exact absurd hws (by decide)

theorem seq_star_skip_d (b : RE) (u s : List Char) (k : List Char → Option (List Char))
    (r : List Char) (xs : List Char) (hu : u.map Char.toLower = 'd' :: xs)
    (hrec : matchRE b (u ++ s) k = some r) :
    matchRE (.seq (.starCls wsChar) b) (u ++ s) k = some r := by
  cases u with
  | nil => simp at hu
  | cons a t =>
      simp only [List.map_cons, List.cons.injEq] at hu
      rw [List.cons_append] at hrec ⊢
      exact seq_star_skip wsChar b a (t ++ s) k r (wsChar_false_of_toLower_d a hu.1) hrec

/-- Proposition that a character list is a valid optional-title part of
the pattern: either absent, or whitespace followed by a double-quoted,
single-quoted, or parenthesized title. -/
def titleOk (title : List Char) : Prop :=
  title = [] ∨
  ∃ ws inner, ws ≠ [] ∧ (∀ c ∈ ws, wsChar c = true) ∧
    ((title = ws ++ '"' :: (inner ++ ['"']) ∧ (∀ c ∈ inner, c ≠ '"')) ∨
     (title = ws ++ squote :: (inner ++ [squote]) ∧ (∀ c ∈ inner, c ≠ squote)) ∨
     (title = ws ++ '(' :: (inner ++ [')']) ∧ (∀ c ∈ inner, c ≠ ')')))

theorem payloadChar_false_of_ws (c : Char) (h : wsChar c = true) : payloadChar c = false := by
  simp [payloadChar, h]

theorem seq_plus_run (p : Char → Bool) (b : RE) (a0 : Char) (a' : List Char) (d : Char)
    (t : List Char) (k : List Char → Option (List Char)) (r : List Char)
    (ha : ∀ c ∈ a0 :: a', p c = true) (hd : p d = false)
    (hrec : matchRE b (d :: t) k = some r) :
    matchRE (.seq (.plusCls p) b) ((a0 :: a') ++ d :: t) k = some r := by
  apply seq_any_step
  simp only [matchRE, plusCandidates, takeWhile_append_eq p d t hd (a0 :: a') ha]
  rw [List.length_cons, List.range_succ_eq_map, List.map_cons]
  apply tryK_cons_some
  rw [Nat.sub_zero, show a'.length + 1 = (a0 :: a').length from rfl, List.drop_left]
  exact hrec

theorem opt_title_dq (b : RE) (w0 : Char) (ws' inner rest : List Char)
    (k : List Char → Option (List Char)) (r : List Char)
    (hws : ∀ c ∈ w0 :: ws', wsChar c = true)
    (hinner : ∀ c ∈ inner, c ≠ '"')
    (hrec : matchRE b (')' :: rest) k = some r) :
    matchRE (.seq (.opt titleRE) b)
      ((w0 :: ws') ++ ('"' :: (inner ++ '"' :: ')' :: rest))) k = some r := by
  apply seq_any_step
  apply opt_hit
  rw [titleRE]
  apply seq_plus_run wsChar _ w0 ws' '"' (inner ++ '"' :: ')' :: rest) _ r hws (by decide)
  apply alt_left
  rw [show ('"' :: (inner ++ '"' :: ')' :: rest) : List Char) =
    strL "\"" ++ (inner ++ '"' :: ')' :: rest) from rfl]
  apply seq_lit_step (strL "\"") (strL "\"") _ _ _ r rfl
  apply seq_star_run (fun c => !(c == '"')) _ inner '"' (')' :: rest) _ r
    (fun c hc => by
      show (!(c == '"')) = true
      rw [beq_eq_false_iff_ne.mpr (hinner c hc)]
      rfl)
    (by decide)
  exact matchRE_lit (strL "\"") (strL "\"") (')' :: rest) _ r rfl hrec

theorem opt_title_sq (b : RE) (w0 : Char) (ws' inner rest : List Char)
    (k : List Char → Option (List Char)) (r : List Char)
    (hws : ∀ c ∈ w0 :: ws', wsChar c = true)
    (hinner : ∀ c ∈ inner, c ≠ squote)
    (hrec : matchRE b (')' :: rest) k = some r) :
    matchRE (.seq (.opt titleRE) b)
      ((w0 :: ws') ++ (squote :: (inner ++ squote :: ')' :: rest))) k = some r := by
  apply seq_any_step
  apply opt_hit
  rw [titleRE]
  apply seq_plus_run wsChar _ w0 ws' squote (inner ++ squote :: ')' :: rest) _ r hws
    (by decide)
  rw [alt_right_eq _ _ _ _
    (seq_lit_none (strL "\"") _ _ _ (matchLit_cons_ne '"' squote [] _ (by decide)))]
  apply alt_left
  rw [show (squote :: (inner ++ squote :: ')' :: rest) : List Char) =
    [squote] ++ (inner ++ squote :: ')' :: rest) from rfl]
  apply seq_lit_step [squote] [squote] _ _ _ r rfl
  apply seq_star_run (fun c => !(c == squote)) _ inner squote (')' :: rest) _ r
    (fun c hc => by
      show (!(c == squote)) = true
      rw [beq_eq_false_iff_ne.mpr (hinner c hc)]
      rfl)
    (by decide)
  exact matchRE_lit [squote] [squote] (')' :: rest) _ r rfl hrec

theorem opt_title_par (b : RE) (w0 : Char) (ws' inner rest : List Char)
    (k : List Char → Option (List Char)) (r : List Char)
    (hws : ∀ c ∈ w0 :: ws', wsChar c = true)
    (hinner : ∀ c ∈ inner, c ≠ ')')
    (hrec : matchRE b (')' :: rest) k = some r) :
    matchRE (.seq (.opt titleRE) b)
      ((w0 :: ws') ++ ('(' :: (inner ++ ')' :: ')' :: rest))) k = some r := by
  apply seq_any_step
  apply opt_hit
  rw [titleRE]
  apply seq_plus_run wsChar _ w0 ws' '(' (inner ++ ')' :: ')' :: rest) _ r hws (by decide)
  rw [alt_right_eq _ _ _ _
    (seq_lit_none (strL "\"") _ _ _ (matchLit_cons_ne '"' '(' [] _ (by decide)))]
  rw [alt_right_eq _ _ _ _
    (seq_lit_none [squote] _ _ _ (matchLit_cons_ne squote '(' [] _ (by decide)))]
  rw [show ('(' :: (inner ++ ')' :: ')' :: rest) : List Char) =
    strL "(" ++ (inner ++ ')' :: ')' :: rest) from rfl]
  apply seq_lit_step (strL "(") (strL "(") _ _ _ r rfl
  apply seq_star_run (fun c => !(c == ')')) _ inner ')' (')' :: rest) _ r
    (fun c hc => by
      show (!(c == ')')) = true
      rw [beq_eq_false_iff_ne.mpr (hinner c hc)]
      rfl)
    (by decide)
  exact matchRE_lit (strL ")") (strL ")") (')' :: rest) _ r rfl hrec

/-- The payload class, the optional title, and the closing parenthesis of
the pattern consume a well-formed payload and title. -/
theorem payload_title_step (b : RE) (payload title rest : List Char)
    (k : List Char → Option (List Char)) (r : List Char)
    (hpay : ∀ c ∈ payload, payloadChar c = true)
    (htitle : titleOk title)
    (hrec : matchRE b (')' :: rest) k = some r) :
    matchRE (.seq (.starCls payloadChar) (.seq (.opt titleRE) b))
      (payload ++ (title ++ ')' :: rest)) k = some r := by
  rcases htitle with rfl | ⟨ws, inner, hwsne, hws, hcase⟩
  · rw [List.nil_append]
    apply seq_star_run payloadChar _ payload ')' rest k r hpay (by decide)
    exact seq_opt_skip _ _ _ _ _ (seq_plus_fail wsChar _ ')' rest _ (by decide)) hrec
  · obtain ⟨w0, ws', rfl⟩ := List.exists_cons_of_ne_nil hwsne
    have hw0 : payloadChar w0 = false :=
      payloadChar_false_of_ws w0 (hws w0 (List.mem_cons_self w0 ws'))
    rcases hcase with ⟨rfl, hinner⟩ | ⟨rfl, hinner⟩ | ⟨rfl, hinner⟩
    · have hstr : ((w0 :: ws') ++ '"' :: (inner ++ ['"'])) ++ ')' :: rest =
          w0 :: (ws' ++ ('"' :: (inner ++ '"' :: ')' :: rest))) := by simp
      rw [hstr]
      apply seq_star_run payloadChar _ payload w0
        (ws' ++ ('"' :: (inner ++ '"' :: ')' :: rest))) k r hpay hw0
      rw [show w0 :: (ws' ++ ('"' :: (inner ++ '"' :: ')' :: rest))) =
        (w0 :: ws') ++ ('"' :: (inner ++ '"' :: ')' :: rest)) from rfl]
      exact opt_title_dq b w0 ws' inner rest k r hws hinner hrec
    · have hstr : ((w0 :: ws') ++ squote :: (inner ++ [squote])) ++ ')' :: rest =
          w0 :: (ws' ++ (squote :: (inner ++ squote :: ')' :: rest))) := by simp
      rw [hstr]
      apply seq_star_run payloadChar _ payload w0
        (ws' ++ (squote :: (inner ++ squote :: ')' :: rest))) k r hpay hw0
      rw [show w0 :: (ws' ++ (squote :: (inner ++ squote :: ')' :: rest))) =
        (w0 :: ws') ++ (squote :: (inner ++ squote :: ')' :: rest)) from rfl]
      exact opt_title_sq b w0 ws' inner rest k r hws hinner hrec
    · have hstr : ((w0 :: ws') ++ '(' :: (inner ++ [')'])) ++ ')' :: rest =
          w0 :: (ws' ++ ('(' :: (inner ++ ')' :: ')' :: rest))) := by simp
      rw [hstr]
      apply seq_star_run payloadChar _ payload w0
        (ws' ++ ('(' :: (inner ++ ')' :: ')' :: rest))) k r hpay hw0
      rw [show w0 :: (ws' ++ ('(' :: (inner ++ ')' :: ')' :: rest))) =
        (w0 :: ws') ++ ('(' :: (inner ++ ')' :: ')' :: rest)) from rfl]
      exact opt_title_par b w0 ws' inner rest k r hws hinner hrec

/-- The parenthesized base64 URL pattern consumes exactly a well-formed
construct, handing the text after the closing parenthesis to the
continuation. -/
theorem parenCore_match (dp m bp payload title rest : List Char)
    (k : List Char → Option (List Char)) (r : List Char)
    (hdp : dp.map Char.toLower = strL "data:image/")
    (hm : mimeOk m)
    (hbp : bp.map Char.toLower = strL ";base64")
    (hpay : ∀ c ∈ payload, payloadChar c = true)
    (htitle : titleOk title)
    (hk : k rest = some r) :
    matchRE parenCore
      (strL "(" ++ (dp ++ (m ++ (bp ++ (payload ++ (title ++ (strL ")" ++ rest))))))) k =
      some r := by
  rw [parenCore]
  apply seq_lit_step (strL "(") (strL "(") _ _ k r rfl
  apply seq_star_skip_d _ dp _ k r (strL "ata:image/") hdp
  apply seq_lit_step (strL "data:image/") dp _ _ k r (hdp.trans (by decide))
  apply seq_any_step
  apply mimeRE_match m _ _ r hm
  apply seq_lit_step (strL ";base64") bp _ _ k r (hbp.trans (by decide))
  rw [show strL ")" ++ rest = ')' :: rest from rfl]
  apply payload_title_step _ payload title rest k r hpay htitle
  apply seq_star_skip wsChar _ ')' rest k r (by decide)
  exact matchRE_lit (strL ")") (strL ")") rest k r rfl hk

/-- The embed pattern consumes exactly a well-formed image construct,
whatever follows it. -/
theorem embed_matchHere (alt dp m bp payload title rest : List Char)
    (halt : ∀ c ∈ alt, c ≠ ']')
    (hdp : dp.map Char.toLower = strL "data:image/")
    (hm : mimeOk m)
    (hbp : bp.map Char.toLower = strL ";base64")
    (hpay : ∀ c ∈ payload, payloadChar c = true)
    (htitle : titleOk title) :
    matchHere REGEX_BASE64_EMBED
      (strL "![" ++ (alt ++ (strL "]" ++
        (strL "(" ++ (dp ++ (m ++ (bp ++ (payload ++ (title ++ (strL ")" ++ rest)))))))))) =
      some rest := by
  rw [matchHere, REGEX_BASE64_EMBED]
  apply seq_lit_step (strL "![") (strL "![") _ _ some rest rfl
  have hcons : ∀ (w : List Char), strL "]" ++ w = ']' :: w := fun w => rfl
  rw [hcons]
  apply seq_star_run (fun c => !(c == ']')) _ alt ']'
    (strL "(" ++ (dp ++ (m ++ (bp ++ (payload ++ (title ++ (strL ")" ++ rest))))))) some rest
    (fun c hc => by
      show (!(c == ']')) = true
      rw [beq_eq_false_iff_ne.mpr (halt c hc)]
      rfl) (by decide)
  rw [← hcons]
  apply seq_lit_step (strL "]") (strL "]") _ _ some rest rfl
  exact parenCore_match dp m bp payload title rest some rest hdp hm hbp hpay htitle rfl

/-! Lemmas about re.sub for a string starting with a match, and for a
string in which the pattern matches nowhere. -/

theorem subREFuel_fuel_ge (re : RE) (repl : List Char) :
    ∀ (f1 f2 : Nat) (s : List Char), s.length ≤ f1 → s.length ≤ f2 →
      subREFuel re repl f1 s = subREFuel re repl f2 s := by
  intro f1
  induction f1 with
  | zero =>
      intro f2 s h1 h2
      have : s = [] := List.length_eq_zero.1 (Nat.le_zero.1 h1)
      subst this
      cases f2 <;> rfl
  | succ n ih =>
      intro f2 s h1 h2
      cases s with
      | nil => cases f2 <;> rfl
      | cons c rest =>
          cases f2 with
          | zero =>
              exact absurd h2 (by simp)
          | succ n2 =>
              have hr1 : rest.length ≤ n := by simpa using Nat.le_of_succ_le_succ h1
              have hr2 : rest.length ≤ n2 := by simpa using Nat.le_of_succ_le_succ h2
              cases hm : matchHere re (c :: rest) with
              | none =>
                  simp only [subREFuel, hm]
                  rw [ih n2 rest hr1 hr2]
              | some suffix =>
                  simp only [subREFuel, hm]
                  by_cases hlt : suffix.length < rest.length + 1
                  · rw [if_pos hlt, if_pos hlt,
                      ih n2 suffix (by omega) (by omega)]
                  · rw [if_neg hlt, if_neg hlt, ih n2 rest hr1 hr2]

theorem subRE_head_match (re : RE) (repl construct rest : List Char)
    (hne : construct ≠ [])
    (hm : matchHere re (construct ++ rest) = some rest) :
    subRE re repl (construct ++ rest) = repl ++ subRE re repl rest := by
  obtain ⟨c0, cs, rfl⟩ := List.exists_cons_of_ne_nil hne
  rw [List.cons_append] at hm ⊢
  simp only [subRE, List.length_cons, subREFuel, List.append_eq, hm]
  rw [if_pos (by simp only [List.length_append]; omega)]
  rw [subREFuel_fuel_ge re repl (cs ++ rest).length rest.length rest
    (by simp only [List.length_append]; omega) (Nat.le_refl _)]

/-- Inversion for a literal node. -/
theorem lit_inv (p s : List Char) (k : List Char → Option (List Char)) (r : List Char)
    (h : matchRE (.lit p) s k = some r) : ∃ t, matchLit p s = some t ∧ k t = some r := by
  simp only [matchRE] at h
  cases hm : matchLit p s with
  | none => rw [hm] at h; cases h
  | some t => rw [hm] at h; exact ⟨t, rfl, h⟩

theorem starCandidates_suffix (p : Char → Bool) (s t : List Char)
    (h : t ∈ starCandidates p s) : ∃ u, s = u ++ t := by
  simp only [starCandidates, List.mem_map, List.mem_range] at h
  obtain ⟨i, _, hi⟩ := h
  exact ⟨s.take ((s.takeWhile p).length - i), by rw [← hi]; exact (List.take_append_drop _ s).symm⟩

theorem tryK_some_mem (k : List Char → Option (List Char)) :
    ∀ (ts : List (List Char)) (r : List Char), tryK k ts = some r → ∃ t ∈ ts, k t = some r
  | [], r, h => by cases h
  | t :: ts, r, h => by
      simp only [tryK] at h
      cases hk : k t with
      | some r2 =>
          rw [hk] at h
          exact ⟨t, List.mem_cons_self t ts, hk.trans h⟩
      | none =>
          rw [hk] at h
          obtain ⟨t2, ht2, hk2⟩ := tryK_some_mem k ts r h
          exact ⟨t2, List.mem_cons_of_mem t ht2, hk2⟩

/-- Inversion for a star node: some suffix of the input is handed on. -/
theorem star_inv (p : Char → Bool) (s : List Char) (k : List Char → Option (List Char))
    (r : List Char) (h : matchRE (.starCls p) s k = some r) :
    ∃ u t, s = u ++ t ∧ k t = some r := by
  simp only [matchRE] at h
  obtain ⟨t, ht, hk⟩ := tryK_some_mem k _ r h
  obtain ⟨u, hu⟩ := starCandidates_suffix p s t ht
  exact ⟨u, t, hu, hk⟩

theorem matchLit_consume : ∀ (p s t : List Char), matchLit p s = some t →
    ∃ u, s = u ++ t ∧ matchesCI p u = true
  | [], s, t, h => by
      simp only [matchLit, Option.some.injEq] at h
      exact ⟨[], by simp [h], rfl⟩
  | _ :: _, [], t, h => by cases h
  | x :: ps, c :: cs, t, h => by
      simp only [matchLit] at h
      by_cases hc : charCaseMatch x c = true
      · rw [if_pos hc] at h
        obtain ⟨u, hu1, hu2⟩ := matchLit_consume ps cs t h
        exact ⟨c :: u, by simp [hu1], by simp [matchesCI, hc, hu2]⟩
      · rw [if_neg hc] at h
        cases h

/-- Boolean test that the pattern matches, case insensitively, at some
position of the string. -/
def ciSubB (p : List Char) : List Char → Bool
  | [] => p.isEmpty
  | s@(_ :: rest) => matchesCI p s || ciSubB p rest

theorem matchesCI_append : ∀ (p u b : List Char), matchesCI p u = true →
    matchesCI p (u ++ b) = true
  | [], _, _, _ => rfl
  | _ :: _, [], _, h => by cases h
  | x :: ps, c :: cs, b, h => by
      simp only [matchesCI, Bool.and_eq_true] at h
      simp only [List.cons_append, matchesCI, h.1, Bool.true_and]
      exact matchesCI_append ps cs b h.2

theorem ciSubB_of_matches (p s : List Char) (h : matchesCI p s = true) :
    ciSubB p s = true := by
  cases s with
  | nil =>
      cases p with
      | nil => rfl
      | cons _ _ => cases h
  | cons c rest => simp [ciSubB, h]

theorem ciSubB_append_left (p : List Char) : ∀ (a t : List Char), ciSubB p t = true →
    ciSubB p (a ++ t) = true
  | [], _, h => h
  | x :: a', t, h => by
      simp only [List.cons_append, ciSubB, Bool.or_eq_true]
      exact Or.inr (ciSubB_append_left p a' t h)

/-- Proposition that the data image URL marker occurs in the string, up to
the case-insensitive character matching of the re module; both regex
patterns require such an occurrence in order to match. -/
def hasDataImage (s : List Char) : Prop := ciSubB (strL "data:image/") s = true

instance (s : List Char) : Decidable (hasDataImage s) := by
  unfold hasDataImage
  infer_instance

theorem hasDataImage_mono (u v : List Char) (h : hasDataImage v) : hasDataImage (u ++ v) :=
  ciSubB_append_left _ u v h

theorem parenCore_some_hasDataImage (s : List Char) (k : List Char → Option (List Char))
    (r : List Char) (h : matchRE parenCore s k = some r) : hasDataImage s := by
  rw [parenCore] at h
  -- peel the opening parenthesis
  obtain ⟨s1, hm1, h⟩ := lit_inv (strL "(") s _ r h
  obtain ⟨u0, hu0, _⟩ := matchLit_consume _ s s1 hm1
  -- peel the leading whitespace star
  obtain ⟨u1, s2, hs2, h⟩ := star_inv wsChar s1 _ r h
  -- peel the data image literal
  obtain ⟨s3, hm3, _⟩ := lit_inv (strL "data:image/") s2 _ r h
  obtain ⟨u2, hu2, hmci⟩ := matchLit_consume _ s2 s3 hm3
  rw [hu0, hs2, hu2]
  apply hasDataImage_mono u0
  apply hasDataImage_mono u1
  exact ciSubB_of_matches _ _ (matchesCI_append _ u2 s3 hmci)

theorem embed_some_hasDataImage (s : List Char) (k : List Char → Option (List Char))
    (r : List Char) (h : matchRE REGEX_BASE64_EMBED s k = some r) : hasDataImage s := by
  rw [REGEX_BASE64_EMBED] at h
  obtain ⟨s1, hm1, h⟩ := lit_inv (strL "![") s _ r h
  obtain ⟨u0, hu0, _⟩ := matchLit_consume _ s s1 hm1
  obtain ⟨u1, s2, hs2, h⟩ := star_inv (fun c => !(c == ']')) s1 _ r h
  obtain ⟨s3, hm3, h⟩ := lit_inv (strL "]") s2 _ r h
  obtain ⟨u2, hu2, _⟩ := matchLit_consume _ s2 s3 hm3
  have hd3 : hasDataImage s3 := parenCore_some_hasDataImage s3 k r h
  rw [hu0, hs2, hu2]
  exact hasDataImage_mono u0 _ (hasDataImage_mono u1 _ (hasDataImage_mono u2 _ hd3))

/-- Proposition that `v` is a suffix of `s`. -/
def SuffixOf (v s : List Char) : Prop := ∃ u, s = u ++ v

theorem subREFuel_no_match (re : RE) (repl : List Char) :
    ∀ (f : Nat) (s : List Char), s.length ≤ f →
      (∀ v, SuffixOf v s → matchHere re v = none) → subREFuel re repl f s = s := by
  intro f
  induction f with
  | zero =>
      intro s hf hnm
      have : s = [] := List.length_eq_zero.1 (Nat.le_zero.1 hf)
      subst this
      simp only [subREFuel]
      rw [hnm [] ⟨[], rfl⟩]
  | succ n ih =>
      intro s hf hnm
      cases s with
      | nil =>
          simp only [subREFuel]
          rw [hnm [] ⟨[], rfl⟩]
      | cons c rest =>
          simp only [subREFuel]
          rw [hnm (c :: rest) ⟨[], rfl⟩]
          rw [ih rest (by simpa using Nat.le_of_succ_le_succ hf)
            (fun v hv => by
              obtain ⟨u, hu⟩ := hv
              exact hnm v ⟨c :: u, by rw [hu, List.cons_append]⟩)]

/-- Neither pass changes a string without a case-insensitive data image
URL marker. -/
theorem clean_id_of_no_data_image (s : List Char) (h : ¬ hasDataImage s) :
    clean_base64_images s = s := by
  have hnm1 : ∀ v, SuffixOf v s → matchHere REGEX_BASE64_EMBED v = none := by
    intro v hv
    cases hm : matchHere REGEX_BASE64_EMBED v with
    | none => rfl
    | some r =>
        exfalso
        have hd := embed_some_hasDataImage v some r hm
        obtain ⟨u, hu⟩ := hv
        exact h (hu ▸ hasDataImage_mono u v hd)
  have hnm2 : ∀ v, SuffixOf v s → matchHere RE_BASE64_PAREN v = none := by
    intro v hv
    cases hm : matchHere RE_BASE64_PAREN v with
    | none => rfl
    | some r =>
        exfalso
        have hd := parenCore_some_hasDataImage v some r hm
        obtain ⟨u, hu⟩ := hv
        exact h (hu ▸ hasDataImage_mono u v hd)
  have h1 : subRE REGEX_BASE64_EMBED [] s = s :=
    subREFuel_no_match _ _ s.length s (Nat.le_refl _) hnm1
  have h2 : subRE RE_BASE64_PAREN (strL "()") s = s :=
    subREFuel_no_match _ _ s.length s (Nat.le_refl _) hnm2
  rw [clean_base64_images, h1, h2]

/-! The formatting pipeline and the converter dispatch.  The external
Markdown formatter is a black box and appears as a function parameter. -/

/-- Model of Python str.strip(): drop whitespace from both ends. -/
def pyStrip (s : List Char) : List Char :=
  ((s.dropWhile wsChar).reverse.dropWhile wsChar).reverse

/-- Model of Converter.format_md, parameterized by the external formatter
`text` of the mdformat library: format, apply the strategy, strip, and
append one newline. -/
def format_md (text : List Char → List Char) (strategy : List (List Char × List Char))
    (md : List Char) : List Char :=
  pyStrip (apply_strategy_replace (text md) strategy) ++ ['\n']

/-- Model of the UnsupportedFileExtensionError payload: the offending
token and the supported tokens named by the message. -/
structure UnsupportedFileExtensionError where
  extension : List Char
  supported : List (List Char)
deriving DecidableEq

/-- Model of Python dict.get on the dispatch table. -/
def dictGet {α : Type} (ext : List Char) : List (List Char × α) → Option α
  | [] => none
  | (key, v) :: rest => if ext = key then some v else dictGet ext rest

/-- Model of the mapping built in Converter.__init__, in insertion order. -/
def converterMapping (pdf_to_md docx_to_md : List Nat → List Char) :
    List (List Char × (List Nat → List Char)) :=
  [(strL ".pdf", pdf_to_md), (strL ".docx", docx_to_md)]

/-- Model of Converter.file_to_md: look the extension up, fail with
UnsupportedFileExtensionError when absent, else convert and post-format. -/
def file_to_md (pdf_to_md docx_to_md : List Nat → List Char)
    (text : List Char → List Char) (strategy : List (List Char × List Char))
    (stream : List Nat) (file_extension : List Char) :
    Except UnsupportedFileExtensionError (List Char) :=
  match dictGet file_extension (converterMapping pdf_to_md docx_to_md) with
  | none =>
      .error ⟨file_extension, (converterMapping pdf_to_md docx_to_md).map Prod.fst⟩
  | some func => .ok (format_md text strategy (func stream))

/-- Model of the strategy selection in Converter.__init__, the Python
expression `strategy or DEFAULT_STRATEGY_REPLACE`: None and the empty
dict are falsy and fall back to the default. -/
def converter_init_strategy (strategy : Option (List (List Char × List Char))) :
    List (List Char × List Char) :=
  match strategy with
  | none => DEFAULT_STRATEGY_REPLACE
  | some s => if s.isEmpty then DEFAULT_STRATEGY_REPLACE else s

theorem bool_eq_false_of_not (b : Bool) (h : ¬ b = true) : b = false := by
  cases b with
  | false => rfl
  | true => exact absurd rfl h

theorem dropWhile_head_false (p : Char → Bool) :
    ∀ (l : List Char) (c : Char), (l.dropWhile p).head? = some c → p c = false
  | [], c, h => by cases h
  | x :: t, c, h => by
      rw [List.dropWhile_cons] at h
      by_cases hx : p x = true
      · rw [if_pos hx] at h
        exact dropWhile_head_false p t c h
      · rw [if_neg hx] at h
        simp only [List.head?_cons, Option.some.injEq] at h
        subst h
        exact bool_eq_false_of_not _ hx

theorem getLast?_append_right (u t : List Char) (ht : t ≠ []) :
    (u ++ t).getLast? = t.getLast? := by
  induction u with
  | nil => rfl
  | cons x u' ih =>
      cases hu : u' ++ t with
      | nil => exact absurd (List.append_eq_nil.mp hu).2 ht
      | cons y ys =>
          rw [List.cons_append, hu, List.getLast?_cons_cons, ← hu, ih]

theorem pyStrip_head (s : List Char) (c : Char) (h : (pyStrip s).head? = some c) :
    wsChar c = false := by
  rw [pyStrip, List.head?_reverse] at h
  have hW : (s.dropWhile wsChar).reverse.dropWhile wsChar ≠ [] := by
    intro hnil
    rw [hnil] at h
    cases h
  have h2 : ((s.dropWhile wsChar).reverse).getLast? = some c := by
    rw [← List.takeWhile_append_dropWhile wsChar (s.dropWhile wsChar).reverse,
      getLast?_append_right _ _ hW]
    exact h
  rw [List.getLast?_reverse] at h2
  exact dropWhile_head_false wsChar _ c h2

theorem pyStrip_last (s : List Char) (c : Char) (h : (pyStrip s).getLast? = some c) :
    wsChar c = false := by
  rw [pyStrip, List.getLast?_reverse] at h
  exact dropWhile_head_false wsChar _ c h

/-- A Markdown base64 image construct, as text, with its optional title
part (empty when absent). -/
def embedStr (alt dp m bp payload title : List Char) : List Char :=
  strL "![" ++ alt ++ strL "]" ++ strL "(" ++ dp ++ m ++ bp ++ payload ++ title ++ strL ")"

/-- A bare parenthesized base64 URL, as text, with its optional title part. -/
def parenStr (dp m bp payload title : List Char) : List Char :=
  strL "(" ++ dp ++ m ++ bp ++ payload ++ title ++ strL ")"

instance (m : List Char) : Decidable (mimeOk m) := by
  unfold mimeOk
  infer_instance

theorem embedStr_ne_nil (alt dp m bp payload title : List Char) :
    embedStr alt dp m bp payload title ≠ [] := by
  intro h
  have h2 : (embedStr alt dp m bp payload title).head? = none := by rw [h]; rfl
  rw [show (embedStr alt dp m bp payload title).head? = some '!' from rfl] at h2
  cases h2

theorem parenStr_ne_nil (dp m bp payload title : List Char) :
    parenStr dp m bp payload title ≠ [] := by
  intro h
  have h2 : (parenStr dp m bp payload title).head? = none := by rw [h]; rfl
  rw [show (parenStr dp m bp payload title).head? = some '(' from rfl] at h2
  cases h2

/-! The claims. -/

/-- C1: for every byte stream and every file-extension token outside the
registered case-sensitive set, file_to_md fails with an
UnsupportedFileExtensionError carrying the offending token and the list
of supported tokens, and the outcome does not depend on the conversion
routines, which are never invoked. -/
theorem file_to_md_unsupported_ext
    (pdf docx pdf2 docx2 : List Nat → List Char) (text : List Char → List Char)
    (strategy : List (List Char × List Char)) (stream : List Nat) (ext : List Char)
    (h1 : ext ≠ strL ".pdf") (h2 : ext ≠ strL ".docx") :
    file_to_md pdf docx text strategy stream ext =
      .error ⟨ext, [strL ".pdf", strL ".docx"]⟩ ∧
    file_to_md pdf docx text strategy stream ext =
      file_to_md pdf2 docx2 text strategy stream ext := by
  have hget : ∀ (f g : List Nat → List Char),
      dictGet ext [(strL ".pdf", f), (strL ".docx", g)] = none := by
    intro f g
    simp [dictGet, h1, h2]
  constructor
  · simp [file_to_md, converterMapping, hget]
  · simp [file_to_md, converterMapping, hget]

/-- Witness for C1 at the token .txt. -/
theorem file_to_md_unsupported_ext_witness :
    file_to_md (fun _ => []) (fun _ => []) (fun s => s) [] [] (strL ".txt") =
      .error ⟨strL ".txt", [strL ".pdf", strL ".docx"]⟩ :=
  (file_to_md_unsupported_ext (fun _ => []) (fun _ => []) (fun _ => []) (fun _ => [])
    (fun s => s) [] [] (strL ".txt") (by decide) (by decide)).1

/-- C2: for every formatter, strategy and input, format_md ends in a
newline, and the part before that final newline has neither leading nor
trailing whitespace, so the output ends in exactly one newline. -/
theorem format_md_trailing_newline (text : List Char → List Char)
    (strategy : List (List Char × List Char)) (md : List Char) :
    format_md text strategy md ≠ [] ∧
    (format_md text strategy md).getLast? = some '\n' ∧
    (∀ c, (format_md text strategy md).dropLast.head? = some c → wsChar c = false) ∧
    (∀ c, (format_md text strategy md).dropLast.getLast? = some c → wsChar c = false) := by
  have hdl : (format_md text strategy md).dropLast =
      pyStrip (apply_strategy_replace (text md) strategy) := by
    simp [format_md]
  refine ⟨by simp [format_md], by simp [format_md], ?_, ?_⟩
  · intro c h
    rw [hdl] at h
    exact pyStrip_head _ c h
  · intro c h
    rw [hdl] at h
    exact pyStrip_last _ c h

/-- Witness for C2 on a concrete formatter and input. -/
theorem format_md_trailing_newline_witness :
    (format_md (fun s => s) [] (strL " a ")).getLast? = some '\n' ∧ wsChar 'a' = false :=
  ⟨(format_md_trailing_newline (fun s => s) [] (strL " a ")).2.1,
    (format_md_trailing_newline (fun s => s) [] (strL " a ")).2.2.1 'a' (by decide)⟩

/-- C3 counterexample: with the two-pair strategy taking b to the empty
string and a to b, the input a maps to b, and the key b occurs as a
substring of the result, refuting the fixpoint property as stated for
every replacement strategy. -/
theorem apply_strategy_fixpoint_counterexample :
    (strL "b", ([] : List Char)) ∈ [(strL "b", ([] : List Char)), (strL "a", strL "b")] ∧
    apply_strategy_replace (strL "a") [(strL "b", []), (strL "a", strL "b")] = strL "b" ∧
    IsSub (strL "b")
      (apply_strategy_replace (strL "a") [(strL "b", []), (strL "a", strL "b")]) :=
  ⟨by decide, by decide, by decide⟩

/-- C3 amended: for every input string, after applying the default
strategy no key of the default strategy occurs as a substring of the
result; in particular the example input keeps no run of three or more
consecutive newlines. -/
theorem apply_default_strategy_no_key_occurs (s : List Char) :
    (∀ kv ∈ DEFAULT_STRATEGY_REPLACE,
      ¬ IsSub kv.1 (apply_strategy_replace s DEFAULT_STRATEGY_REPLACE)) ∧
    ¬ IsSub (strL "\n\n\n")
      (apply_strategy_replace (strL "a\n\n\n\n\nb") DEFAULT_STRATEGY_REPLACE) := by
  have hfix := default_fixpoint s
  constructor
  · intro kv hkv
    simp only [DEFAULT_STRATEGY_REPLACE, List.mem_cons, List.not_mem_nil, or_false] at hkv
    rcases hkv with rfl | rfl | rfl
    · exact hfix.1
    · exact hfix.2.1
    · exact hfix.2.2
  · exact (default_fixpoint (strL "a\n\n\n\n\nb")).1

/-- Witness for C3 amended at a concrete input and the second key. -/
theorem apply_default_strategy_no_key_occurs_witness :
    ¬ IsSub (strL "xxxxxxx")
      (apply_strategy_replace (strL "axxxxxxxxxxb") DEFAULT_STRATEGY_REPLACE) :=
  (apply_default_strategy_no_key_occurs (strL "axxxxxxxxxxb")).1
    (strL "xxxxxxx", strL "xxx") (by decide)

/-- C4: applying the default strategy twice equals applying it once. -/
theorem apply_default_strategy_idempotent (s : List Char) :
    apply_strategy_replace (apply_strategy_replace s DEFAULT_STRATEGY_REPLACE)
      DEFAULT_STRATEGY_REPLACE = apply_strategy_replace s DEFAULT_STRATEGY_REPLACE := by
  have hfix := default_fixpoint s
  rw [apply_default_eq (apply_strategy_replace s DEFAULT_STRATEGY_REPLACE)]
  rw [rreplace_of_not_sub _ _ _ ((isSubB_false_iff _ _).2 hfix.1)]
  rw [rreplace_of_not_sub _ _ _ ((isSubB_false_iff _ _).2 hfix.2.1)]
  rw [rreplace_of_not_sub _ _ _ ((isSubB_false_iff _ _).2 hfix.2.2)]

/-- C5: the replacement engine has no guard for a zero-length pattern:
with the empty substring the while-loop test always holds, so the loop
never finishes, whatever iteration budget it is given, for every
replacement string and every input. -/
theorem rreplace_empty_pattern_no_budget (replace : List Char) :
    ∀ (fuel : Nat) (s : List Char), rreplaceFuel [] replace fuel s = none := by
  intro fuel
  induction fuel with
  | zero => intro s; simp [rreplaceFuel, isSubB_nil_left]
  | succ n ih => intro s; simp [rreplaceFuel, isSubB_nil_left, ih]

/-- C6 counterexample: supplying the empty strategy does not override the
default: the expression `strategy or DEFAULT_STRATEGY_REPLACE` treats the
empty dict as falsy, so the default pairs still apply to the formatting. -/
theorem converter_empty_strategy_counterexample :
    converter_init_strategy (some []) = DEFAULT_STRATEGY_REPLACE ∧
    apply_strategy_replace (strL "a\n\n\nb") (converter_init_strategy (some [])) ≠
      apply_strategy_replace (strL "a\n\n\nb") [] :=
  ⟨by decide, by decide⟩

/-- C6 amended: a nonempty custom strategy supplied at construction
overrides the default entirely and is not merged with it; None or the
empty mapping falls back to the default strategy. -/
theorem converter_nonempty_strategy_overrides (s : List (List Char × List Char))
    (h : s ≠ []) : converter_init_strategy (some s) = s := by
  cases s with
  | nil => exact absurd rfl h
  | cons p t => rfl

/-- Witness for C6 amended on a one-pair strategy. -/
theorem converter_nonempty_strategy_overrides_witness :
    converter_init_strategy (some [(strL "q", strL "z")]) = [(strL "q", strL "z")] :=
  converter_nonempty_strategy_overrides [(strL "q", strL "z")] (by decide)

/-- C7: every Markdown image construct carrying a recognized MIME name, a
case-insensitive data/base64 marker, and an optional quoted or
parenthesized title is deleted in full, leaving nothing, whatever text
follows it; and three spec examples, one fully upper-case and one with a
title. -/
theorem clean_base64_embed_removal (alt dp m bp payload title rest : List Char)
    (halt : ∀ c ∈ alt, c ≠ ']')
    (hdp : dp.map Char.toLower = strL "data:image/")
    (hm : mimeOk m)
    (hbp : bp.map Char.toLower = strL ";base64")
    (hpay : ∀ c ∈ payload, payloadChar c = true)
    (htitle : titleOk title) :
    clean_base64_images (embedStr alt dp m bp payload title ++ rest) =
      clean_base64_images rest ∧
    clean_base64_images (strL "before ![](data:image/png;base64,AAA) after") =
      strL "before  after" ∧
    clean_base64_images (strL "![](DATA:IMAGE/PNG;BASE64,AA)") = [] ∧
    clean_base64_images (strL "![Alt](DATA:IMAGE/PNG;BASE64,AAAB " ++ [squote] ++
      strL "title" ++ [squote] ++ strL ")") = [] := by
  refine ⟨?_, by decide, by decide, by decide⟩
  have hmm : matchHere REGEX_BASE64_EMBED (embedStr alt dp m bp payload title ++ rest) =
      some rest := by
    have hbase := embed_matchHere alt dp m bp payload title rest halt hdp hm hbp hpay htitle
    simpa only [embedStr, List.append_assoc] using hbase
  have h1 : subRE REGEX_BASE64_EMBED [] (embedStr alt dp m bp payload title ++ rest) =
      subRE REGEX_BASE64_EMBED [] rest := by
    rw [subRE_head_match REGEX_BASE64_EMBED [] (embedStr alt dp m bp payload title) rest
      (embedStr_ne_nil alt dp m bp payload title) hmm]
    rfl
  rw [clean_base64_images, clean_base64_images, h1]

/-- Witness for C7 on a concrete construct with a single-quoted title,
followed by a tail. -/
theorem clean_base64_embed_removal_witness :
    clean_base64_images (embedStr [] (strL "data:image/") (strL "png") (strL ";base64")
      (strL ",AAA") ([' '] ++ squote :: (strL "ti" ++ [squote])) ++ strL " tail") =
      clean_base64_images (strL " tail") :=
  (clean_base64_embed_removal [] (strL "data:image/") (strL "png") (strL ";base64")
    (strL ",AAA") ([' '] ++ squote :: (strL "ti" ++ [squote])) (strL " tail")
    (by decide) (by decide) (by decide) (by decide) (by decide)
    (Or.inr ⟨[' '], strL "ti", by decide, by decide,
      Or.inr (Or.inl ⟨by decide, by decide⟩)⟩)).1

/-- C8: in the second pass, any remaining bare parenthesized base64 URL
matching the same pattern, title included, with no image marker before
it, is replaced by an empty pair of parentheses, whatever text follows
it; the spec example through the full stripper; and a titled example. -/
theorem clean_base64_bare_paren (dp m bp payload title rest : List Char)
    (hdp : dp.map Char.toLower = strL "data:image/")
    (hm : mimeOk m)
    (hbp : bp.map Char.toLower = strL ";base64")
    (hpay : ∀ c ∈ payload, payloadChar c = true)
    (htitle : titleOk title) :
    subRE RE_BASE64_PAREN (strL "()") (parenStr dp m bp payload title ++ rest) =
      strL "()" ++ subRE RE_BASE64_PAREN (strL "()") rest ∧
    clean_base64_images (strL "link(data:image/gif;base64,CCC)") = strL "link()" ∧
    clean_base64_images (strL "(data:image/png;base64,Q \"ti\")x") = strL "()x" := by
  refine ⟨?_, by decide, by decide⟩
  have hmm : matchHere RE_BASE64_PAREN (parenStr dp m bp payload title ++ rest) =
      some rest := by
    have hbase := parenCore_match dp m bp payload title rest some rest hdp hm hbp hpay
      htitle rfl
    simp only [matchHere, RE_BASE64_PAREN, parenStr, List.append_assoc]
    exact hbase
  exact subRE_head_match RE_BASE64_PAREN (strL "()") (parenStr dp m bp payload title) rest
    (parenStr_ne_nil dp m bp payload title) hmm

/-- Witness for C8 on a concrete bare URL with a double-quoted title,
followed by a tail. -/
theorem clean_base64_bare_paren_witness :
    subRE RE_BASE64_PAREN (strL "()") (parenStr (strL "data:image/") (strL "gif")
      (strL ";base64") (strL ",CCC") ([' '] ++ '"' :: (strL "t" ++ ['"'])) ++ strL "!") =
      strL "()" ++ subRE RE_BASE64_PAREN (strL "()") (strL "!") :=
  (clean_base64_bare_paren (strL "data:image/") (strL "gif") (strL ";base64")
    (strL ",CCC") ([' '] ++ '"' :: (strL "t" ++ ['"'])) (strL "!")
    (by decide) (by decide) (by decide) (by decide)
    (Or.inr ⟨[' '], strL "t", by decide, by decide,
      Or.inl ⟨by decide, by decide⟩⟩)).1

/-- C9 counterexample: the stripper is not idempotent; on this input with
a nested parenthesized base64 URL a second application still rewrites. -/
theorem clean_base64_not_idempotent_counterexample :
    clean_base64_images (clean_base64_images
      (strL "(data:image/png;base64,A (data:image/gif;base64,B \"x)y\"))")) ≠
    clean_base64_images
      (strL "(data:image/png;base64,A (data:image/gif;base64,B \"x)y\"))") := by
  decide

/-- C9 amended: clean_base64_images is not idempotent in general, but a
second application is the identity on every input whose cleaned form
contains no case-insensitive data image URL marker. -/
theorem clean_base64_idempotent_no_marker (md : List Char)
    (h : ¬ hasDataImage (clean_base64_images md)) :
    clean_base64_images (clean_base64_images md) = clean_base64_images md :=
  clean_id_of_no_data_image (clean_base64_images md) h

/-- Witness for C9 amended on a concrete input. -/
theorem clean_base64_idempotent_no_marker_witness :
    clean_base64_images (clean_base64_images
      (strL "hello ![](data:image/png;base64,Z)")) =
      clean_base64_images (strL "hello ![](data:image/png;base64,Z)") :=
  clean_base64_idempotent_no_marker (strL "hello ![](data:image/png;base64,Z)") (by decide)

/-- C10: every default rule replaces a pattern by a strictly shorter
string, and for every input the rreplace loop of each default pair
finishes within a budget of one more iteration than the input length. -/
theorem default_strategy_rreplace_terminates (s : List Char) :
    ((strL "\n\n").length < (strL "\n\n\n").length ∧
      (rreplaceFuel (strL "\n\n\n") (strL "\n\n") (s.length + 1) s).isSome = true) ∧
    ((strL "xxx").length < (strL "xxxxxxx").length ∧
      (rreplaceFuel (strL "xxxxxxx") (strL "xxx") (s.length + 1) s).isSome = true) ∧
    ((strL "-").length < (strL "- -").length ∧
      (rreplaceFuel (strL "- -") (strL "-") (s.length + 1) s).isSome = true) := by
  refine ⟨⟨by decide, ?_⟩, ⟨by decide, ?_⟩, ⟨by decide, ?_⟩⟩ <;>
    exact rreplaceFuel_isSome _ _ (by decide) (by decide) (s.length + 1) s (by omega)

end Docmd
